import Mathlib

/-!
Shallow embedding of the Smart-pointers repository (src/weak/shared.h,
src/weak/weak.h, src/shared-from-this/weak.h, src/unique/unique.h,
src/intrusive/intrusive.h) and proofs about the ownership/control-block
lifecycle.

Machine integers: the C++ counters are `size_t`.  All counter mutations in
the sources are reached only through live pointer handles, so every
decrement acts on a counter that mirrors the number of live handles and is
therefore at least 1; we model the counters as `Nat` and prove that
invariant, so truncated subtraction never differs from `size_t` arithmetic
on the reachable states.
-/

namespace SmartPtr

/-- The two concrete control-block variants of src/weak/shared.h:
`PtrControlBlock<T>` (separately allocated payload, a raw `ptr_`) and
`MakeSharedControlBlock<T>` (embedded storage plus a `was_data_deleted_`
flag). -/
inductive Variant where
  | ptrVariant
  | msVariant
deriving DecidableEq, Repr

/-- State of a `BaseControlBlock` together with the variant-specific fields.
`ptr_nonnull` models `PtrControlBlock::ptr_ != nullptr`;
`was_data_deleted` models `MakeSharedControlBlock::was_data_deleted_`. -/
structure CB where
  shared_counter : Nat
  weak_counter : Nat
  variant : Variant
  ptr_nonnull : Bool
  was_data_deleted : Bool
deriving DecidableEq, Repr

/-- `BaseControlBlock::IncrementShared`: `++shared_counter_`. -/
def CB.IncrementShared (b : CB) : CB :=
  { b with shared_counter := b.shared_counter + 1 }

/-- `BaseControlBlock::IncrementWeak`: `++weak_counter_`. -/
def CB.IncrementWeak (b : CB) : CB :=
  { b with weak_counter := b.weak_counter + 1 }

/-- `BaseControlBlock::DecrementWeak`: `--weak_counter_`. -/
def CB.DecrementWeak (b : CB) : CB :=
  { b with weak_counter := b.weak_counter - 1 }

/-- `BaseControlBlock::GetSharedCount`. -/
def CB.GetSharedCount (b : CB) : Nat := b.shared_counter

/-- `BaseControlBlock::GetWeakCount`. -/
def CB.GetWeakCount (b : CB) : Nat := b.weak_counter

/-- `BaseControlBlock::CanBlockBeDeleted`:
`shared_counter_ == 0 && weak_counter_ == 0`. -/
def CB.CanBlockBeDeleted (b : CB) : Bool :=
  b.shared_counter == 0 && b.weak_counter == 0

/-- The virtual `DeleteData`, dispatched on the variant.  Returns the new
block state and the number of payload-destructor invocations this call
performs (`delete ptr_` resp. `Get()->~T()`).
`PtrControlBlock::DeleteData`: `if (ptr_) { delete ptr_; ptr_ = nullptr; }`.
`MakeSharedControlBlock::DeleteData`:
`if (!was_data_deleted_) { Get()->~T(); was_data_deleted_ = true; }`. -/
def CB.DeleteData (b : CB) : CB × Nat :=
  match b.variant with
  | .ptrVariant =>
      if b.ptr_nonnull then ({ b with ptr_nonnull := false }, 1) else (b, 0)
  | .msVariant =>
      if b.was_data_deleted then (b, 0)
      else ({ b with was_data_deleted := true }, 1)

/-- `BaseControlBlock::DecrementShared`:
`--shared_counter_; if (shared_counter_ == 0) DeleteData();`
Returns the new state and the number of payload-destructor invocations. -/
def CB.DecrementShared (b : CB) : CB × Nat :=
  let b1 : CB := { b with shared_counter := b.shared_counter - 1 }
  if b1.shared_counter = 0 then b1.DeleteData else (b1, 0)

/-- Payload-destructor invocations performed by `delete block_`, i.e. by the
variant's destructor.  `~PtrControlBlock` calls `DeleteData()`;
`~MakeSharedControlBlock` runs `if (!was_data_deleted_) Get()->~T();`. -/
def CB.destructorDestroys (b : CB) : Nat :=
  match b.variant with
  | .ptrVariant => (b.DeleteData).2
  | .msVariant => if b.was_data_deleted then 0 else 1

/-- Whether the payload is currently alive (constructed and not destroyed):
the separate-allocation variant still holds its pointer, the combined
variant has not destroyed the embedded object. -/
def CB.dataAlive (b : CB) : Bool :=
  match b.variant with
  | .ptrVariant => b.ptr_nonnull
  | .msVariant => !b.was_data_deleted

/-! ## Trace machine over a single control block

One control block plus the multiset of live `SharedPtr`/`WeakPtr` handles
attached to it, driven by the client-reachable operations of
src/weak/shared.h and src/weak/weak.h.  `destroys` counts cumulative
payload-destructor invocations, `frees` cumulative `delete block_`
deallocations. -/

structure TraceState where
  block : Option CB
  nShared : Nat
  nWeak : Nat
  destroys : Nat
  frees : Nat
deriving DecidableEq, Repr

/-- Client-reachable operations on the block:
copy/reset-or-destroy of a `SharedPtr`, demotion `WeakPtr(const SharedPtr&)`,
copy and reset-or-destroy of a `WeakPtr`, `WeakPtr::Lock`, and strict
promotion `SharedPtr(const WeakPtr&)`. -/
inductive Op where
  | copyShared
  | dropShared
  | weakFromShared
  | copyWeak
  | dropWeak
  | lockWeak
  | promoteStrict
deriving DecidableEq, Repr

/-- `SharedPtr::Reset` acting on the block (the handle had `block_` set):
`DecrementShared(); if (CanBlockBeDeleted()) delete block_;`.
Returns the surviving block (`none` if deallocated), the number of payload
destroys and the number of block frees. -/
def sharedResetBlock (b : CB) : Option CB × Nat × Nat :=
  let p := b.DecrementShared
  if p.1.CanBlockBeDeleted then (none, p.2 + p.1.destructorDestroys, 1)
  else (some p.1, p.2, 0)

/-- `WeakPtr::Reset` (src/weak/weak.h) acting on the block:
`DecrementWeak(); if (CanBlockBeDeleted()) delete block_;`. -/
def weakResetBlock (b : CB) : Option CB × Nat × Nat :=
  let b1 := b.DecrementWeak
  if b1.CanBlockBeDeleted then (none, b1.destructorDestroys, 1)
  else (some b1, 0, 0)

/-- One client operation.  `none` means the operation is not available in
this state (it would need a live handle that does not exist).
`lockWeak` follows `SharedPtr(const WeakPtr&, true)`: it increments the
strong count unconditionally (even when expired) and yields a handle whose
`block_` is attached.  `promoteStrict` follows
`SharedPtr(const WeakPtr&, false)`: on an expired attached block it throws
`BadWeakPtr` before `IncrementShared`, leaving the state unchanged. -/
def step (s : TraceState) : Op → Option TraceState
  | .copyShared =>
      match s.block with
      | some b =>
          if 1 ≤ s.nShared then
            some { s with block := some b.IncrementShared, nShared := s.nShared + 1 }
          else none
      | none => none
  | .dropShared =>
      match s.block with
      | some b =>
          if 1 ≤ s.nShared then
            some { block := (sharedResetBlock b).1, nShared := s.nShared - 1,
                   nWeak := s.nWeak,
                   destroys := s.destroys + (sharedResetBlock b).2.1,
                   frees := s.frees + (sharedResetBlock b).2.2 }
          else none
      | none => none
  | .weakFromShared =>
      match s.block with
      | some b =>
          if 1 ≤ s.nShared then
            some { s with block := some b.IncrementWeak, nWeak := s.nWeak + 1 }
          else none
      | none => none
  | .copyWeak =>
      match s.block with
      | some b =>
          if 1 ≤ s.nWeak then
            some { s with block := some b.IncrementWeak, nWeak := s.nWeak + 1 }
          else none
      | none => none
  | .dropWeak =>
      match s.block with
      | some b =>
          if 1 ≤ s.nWeak then
            some { block := (weakResetBlock b).1, nShared := s.nShared,
                   nWeak := s.nWeak - 1,
                   destroys := s.destroys + (weakResetBlock b).2.1,
                   frees := s.frees + (weakResetBlock b).2.2 }
          else none
      | none => none
  | .lockWeak =>
      match s.block with
      | some b =>
          if 1 ≤ s.nWeak then
            some { s with block := some b.IncrementShared, nShared := s.nShared + 1 }
          else none
      | none => none
  | .promoteStrict =>
      match s.block with
      | some b =>
          if 1 ≤ s.nWeak then
            if b.GetSharedCount = 0 then
              some s
            else
              some { s with block := some b.IncrementShared, nShared := s.nShared + 1 }
          else none
      | none => none

/-- Block freshly made by `SharedPtr(T* ptr)` with a non-null payload:
`new PtrControlBlock(ptr)` runs `IncrementShared()` in its constructor. -/
def initPtr : TraceState :=
  { block := some ⟨1, 0, .ptrVariant, true, false⟩,
    nShared := 1, nWeak := 0, destroys := 0, frees := 0 }

/-- Block freshly made by `MakeShared`: `MakeSharedControlBlock()` runs
`IncrementShared()`, the payload is constructed in the embedded storage. -/
def initMS : TraceState :=
  { block := some ⟨1, 0, .msVariant, false, false⟩,
    nShared := 1, nWeak := 0, destroys := 0, frees := 0 }

/-- States reachable from a fresh one-owner block by any sequence of
shared- and weak-pointer operations. -/
inductive Reachable : TraceState → Prop where
  | initP : Reachable initPtr
  | initM : Reachable initMS
  | next {s s' : TraceState} (op : Op) :
      Reachable s → step s op = some s' → Reachable s'

/-- Whether an operation is one of the shared-pointer copy/reset/destroy
operations (the scope of the payload-destruction invariant). -/
def Op.sharedOnly : Op → Bool
  | .copyShared => true
  | .dropShared => true
  | _ => false

/-- States reachable using only shared-pointer copy/reset/destroy. -/
inductive ReachableShared : TraceState → Prop where
  | initP : ReachableShared initPtr
  | initM : ReachableShared initMS
  | next {s s' : TraceState} (op : Op) :
      ReachableShared s → op.sharedOnly = true → step s op = some s' →
      ReachableShared s'

/-! ## Characterization of the reset operations -/

theorem CB.DeleteData_counters (b : CB) :
    (b.DeleteData).1.shared_counter = b.shared_counter ∧
    (b.DeleteData).1.weak_counter = b.weak_counter := by
  unfold CB.DeleteData
  cases hv : b.variant <;> dsimp only <;> split <;> simp

theorem CB.DecrementShared_counters (b : CB) :
    (b.DecrementShared).1.shared_counter = b.shared_counter - 1 ∧
    (b.DecrementShared).1.weak_counter = b.weak_counter := by
  unfold CB.DecrementShared
  dsimp only
  split
  · have h := CB.DeleteData_counters { b with shared_counter := b.shared_counter - 1 }
    simpa using h
  · simp

theorem sharedResetBlock_free {b : CB} (h1 : b.shared_counter ≤ 1)
    (h0 : b.weak_counter = 0) :
    (sharedResetBlock b).1 = none ∧ (sharedResetBlock b).2.2 = 1 := by
  have hc := CB.DecrementShared_counters b
  unfold sharedResetBlock
  have : (b.DecrementShared).1.CanBlockBeDeleted = true := by
    simp [CB.CanBlockBeDeleted, hc.1, hc.2, h0]
    omega
  simp [this]

theorem sharedResetBlock_keep {b : CB}
    (h : 2 ≤ b.shared_counter ∨ 1 ≤ b.weak_counter) :
    ∃ b' d, sharedResetBlock b = (some b', d, 0) ∧
      b'.shared_counter = b.shared_counter - 1 ∧
      b'.weak_counter = b.weak_counter := by
  have hc := CB.DecrementShared_counters b
  have hcan : (b.DecrementShared).1.CanBlockBeDeleted = false := by
    simp [CB.CanBlockBeDeleted, hc.1, hc.2]
    omega
  refine ⟨(b.DecrementShared).1, (b.DecrementShared).2, ?_, hc.1, hc.2⟩
  simp [sharedResetBlock, hcan]

theorem weakResetBlock_free {b : CB} (h1 : b.weak_counter ≤ 1)
    (h0 : b.shared_counter = 0) :
    (weakResetBlock b).1 = none ∧ (weakResetBlock b).2.2 = 1 := by
  unfold weakResetBlock
  have : (b.DecrementWeak).CanBlockBeDeleted = true := by
    simp [CB.CanBlockBeDeleted, CB.DecrementWeak, h0]
    omega
  simp [this]

theorem weakResetBlock_keep {b : CB}
    (h : 1 ≤ b.shared_counter ∨ 2 ≤ b.weak_counter) :
    weakResetBlock b =
      (some (b.DecrementWeak), 0, 0) ∧
      (b.DecrementWeak).shared_counter = b.shared_counter ∧
      (b.DecrementWeak).weak_counter = b.weak_counter - 1 := by
  have hcan : (b.DecrementWeak).CanBlockBeDeleted = false := by
    simp [CB.CanBlockBeDeleted, CB.DecrementWeak]
    omega
  refine ⟨?_, ?_, ?_⟩
  · simp [weakResetBlock, hcan]
  · simp [CB.DecrementWeak]
  · simp [CB.DecrementWeak]

/-- Exact shape of `SharedPtr::Reset` releasing the last owner of a block
with no weak observers and a live payload: the payload is destroyed exactly
once (the block destructor does not destroy it again) and the block is
freed. -/
theorem sharedResetBlock_last {b : CB} (h1 : b.shared_counter = 1)
    (h0 : b.weak_counter = 0) (ha : b.dataAlive = true) :
    sharedResetBlock b = (none, 1, 1) := by
  obtain ⟨sc, wc, v, pn, wd⟩ := b
  subst h1 h0
  cases v <;> simp [CB.dataAlive] at ha <;> subst ha <;> rfl

/-- `SharedPtr::Reset` on a block with at least two owners only decrements
the counter: no payload destruction, no block free. -/
theorem sharedResetBlock_many {b : CB} (h : 2 ≤ b.shared_counter) :
    sharedResetBlock b =
      (some { b with shared_counter := b.shared_counter - 1 }, 0, 0) := by
  unfold sharedResetBlock CB.DecrementShared
  have h1 : ¬ (b.shared_counter - 1 = 0) := by omega
  rw [if_neg h1]
  have : (CB.CanBlockBeDeleted { b with shared_counter := b.shared_counter - 1 }) = false := by
    simp [CB.CanBlockBeDeleted]
    omega
  simp [this]

/-! ## Invariants -/

/-- Invariant for shared-only traces: the counter mirrors the number of live
handles, the payload is alive exactly while the block is, and nothing has
been destroyed or freed yet; once the block is gone, exactly one payload
destruction and one free happened. -/
def C1Inv (s : TraceState) : Prop :=
  (∀ b, s.block = some b →
    b.shared_counter = s.nShared ∧ 1 ≤ s.nShared ∧ b.weak_counter = 0 ∧
    s.nWeak = 0 ∧ b.dataAlive = true ∧ s.destroys = 0 ∧ s.frees = 0) ∧
  (s.block = none → s.nShared = 0 ∧ s.destroys = 1 ∧ s.frees = 1)

/-- Invariant for arbitrary traces: the counters mirror the numbers of live
handles and the block has not been freed while any handle lives; once it is
gone, no handles remain and exactly one free happened. -/
def C2Inv (s : TraceState) : Prop :=
  (∀ b, s.block = some b →
    b.shared_counter = s.nShared ∧ b.weak_counter = s.nWeak ∧
    1 ≤ s.nShared + s.nWeak ∧ s.frees = 0) ∧
  (s.block = none → s.nShared = 0 ∧ s.nWeak = 0 ∧ s.frees = 1)

theorem c1Inv_init_ptr : C1Inv initPtr := by
  refine ⟨?_, ?_⟩
  · intro b hb
    simp only [initPtr, Option.some.injEq] at hb
    subst hb
    decide
  · intro h
    simp [initPtr] at h

theorem c1Inv_init_ms : C1Inv initMS := by
  refine ⟨?_, ?_⟩
  · intro b hb
    simp only [initMS, Option.some.injEq] at hb
    subst hb
    decide
  · intro h
    simp [initMS] at h

theorem c2Inv_init_ptr : C2Inv initPtr := by
  refine ⟨?_, ?_⟩
  · intro b hb
    simp only [initPtr, Option.some.injEq] at hb
    subst hb
    decide
  · intro h
    simp [initPtr] at h

theorem c2Inv_init_ms : C2Inv initMS := by
  refine ⟨?_, ?_⟩
  · intro b hb
    simp only [initMS, Option.some.injEq] at hb
    subst hb
    decide
  · intro h
    simp [initMS] at h

theorem c2Inv_step {s s' : TraceState} (op : Op) (h : C2Inv s)
    (hs : step s op = some s') : C2Inv s' := by
  obtain ⟨hsome, hnone⟩ := h
  cases hb : s.block with
  | none => cases op <;> simp [step, hb] at hs
  | some b =>
    obtain ⟨h1, h2, h3, h4⟩ := hsome b hb
    cases op
    case copyShared =>
      simp only [step, hb] at hs
      split at hs
      · simp only [Option.some.injEq] at hs
        subst hs
        refine ⟨?_, ?_⟩
        · rintro b' hb'
          simp only [Option.some.injEq] at hb'
          subst hb'
          refine ⟨?_, ?_, ?_, ?_⟩ <;> simp [CB.IncrementShared, h1, h2, h4] <;> omega
        · intro hn
          simp at hn
      · exact absurd hs (by simp)
    case weakFromShared =>
      simp only [step, hb] at hs
      split at hs
      · simp only [Option.some.injEq] at hs
        subst hs
        refine ⟨?_, ?_⟩
        · rintro b' hb'
          simp only [Option.some.injEq] at hb'
          subst hb'
          refine ⟨?_, ?_, ?_, ?_⟩ <;> simp [CB.IncrementWeak, h1, h2, h4] <;> omega
        · intro hn
          simp at hn
      · exact absurd hs (by simp)
    case copyWeak =>
      simp only [step, hb] at hs
      split at hs
      · simp only [Option.some.injEq] at hs
        subst hs
        refine ⟨?_, ?_⟩
        · rintro b' hb'
          simp only [Option.some.injEq] at hb'
          subst hb'
          refine ⟨?_, ?_, ?_, ?_⟩ <;> simp [CB.IncrementWeak, h1, h2, h4] <;> omega
        · intro hn
          simp at hn
      · exact absurd hs (by simp)
    case lockWeak =>
      simp only [step, hb] at hs
      split at hs
      · simp only [Option.some.injEq] at hs
        subst hs
        refine ⟨?_, ?_⟩
        · rintro b' hb'
          simp only [Option.some.injEq] at hb'
          subst hb'
          refine ⟨?_, ?_, ?_, ?_⟩ <;> simp [CB.IncrementShared, h1, h2, h4] <;> omega
        · intro hn
          simp at hn
      · exact absurd hs (by simp)
    case promoteStrict =>
      simp only [step, hb] at hs
      split at hs
      · split at hs
        · simp only [Option.some.injEq] at hs
          subst hs
          refine ⟨?_, ?_⟩
          · rintro b' hb'
            rw [hb] at hb'
            simp only [Option.some.injEq] at hb'
            subst hb'
            exact ⟨h1, h2, h3, h4⟩
          · intro hn
            rw [hb] at hn
            simp at hn
        · simp only [Option.some.injEq] at hs
          subst hs
          refine ⟨?_, ?_⟩
          · rintro b' hb'
            simp only [Option.some.injEq] at hb'
            subst hb'
            refine ⟨?_, ?_, ?_, ?_⟩ <;> simp [CB.IncrementShared, h1, h2, h4] <;> omega
          · intro hn
            simp at hn
      · exact absurd hs (by simp)
    case dropShared =>
      simp only [step, hb] at hs
      split at hs
      case isTrue hguard =>
        simp only [Option.some.injEq] at hs
        subst hs
        by_cases hlast : s.nShared = 1 ∧ s.nWeak = 0
        · have hfree := sharedResetBlock_free (b := b) (by omega) (by omega)
          refine ⟨?_, ?_⟩
          · rintro b' hb'
            dsimp only at hb'
            rw [hfree.1] at hb'
            simp at hb'
          · intro _
            dsimp only
            refine ⟨by omega, by omega, ?_⟩
            rw [hfree.2, h4]
        · have hkeep := sharedResetBlock_keep (b := b) (by omega)
          obtain ⟨b', d, hEq, hsc, hwc⟩ := hkeep
          have hBlk : (sharedResetBlock b).1 = some b' := by rw [hEq]
          have hFr : (sharedResetBlock b).2.2 = 0 := by rw [hEq]
          refine ⟨?_, ?_⟩
          · rintro b'' hb''
            dsimp only at hb''
            rw [hBlk] at hb''
            simp only [Option.some.injEq] at hb''
            subst hb''
            dsimp only
            refine ⟨by omega, by omega, by omega, by rw [hFr, h4]⟩
          · intro hn
            dsimp only at hn
            rw [hBlk] at hn
            simp at hn
      case isFalse => exact absurd hs (by simp)
    case dropWeak =>
      simp only [step, hb] at hs
      split at hs
      case isTrue hguard =>
        simp only [Option.some.injEq] at hs
        subst hs
        by_cases hlast : s.nWeak = 1 ∧ s.nShared = 0
        · have hfree := weakResetBlock_free (b := b) (by omega) (by omega)
          refine ⟨?_, ?_⟩
          · rintro b' hb'
            dsimp only at hb'
            rw [hfree.1] at hb'
            simp at hb'
          · intro _
            dsimp only
            refine ⟨by omega, by omega, ?_⟩
            rw [hfree.2, h4]
        · have hkeep := weakResetBlock_keep (b := b) (by omega)
          obtain ⟨hEq, hsc, hwc⟩ := hkeep
          have hBlk : (weakResetBlock b).1 = some (b.DecrementWeak) := by rw [hEq]
          have hFr : (weakResetBlock b).2.2 = 0 := by rw [hEq]
          refine ⟨?_, ?_⟩
          · rintro b'' hb''
            dsimp only at hb''
            rw [hBlk] at hb''
            simp only [Option.some.injEq] at hb''
            subst hb''
            dsimp only
            refine ⟨by omega, by omega, by omega, by rw [hFr, h4]⟩
          · intro hn
            dsimp only at hn
            rw [hBlk] at hn
            simp at hn
      case isFalse => exact absurd hs (by simp)

/-- Every reachable state satisfies the block-lifecycle invariant. -/
theorem c2Inv_reachable {s : TraceState} (h : Reachable s) : C2Inv s := by
  induction h with
  | initP => exact c2Inv_init_ptr
  | initM => exact c2Inv_init_ms
  | next op _ hstep ih => exact c2Inv_step op ih hstep

theorem c1Inv_step {s s' : TraceState} (op : Op) (hso : op.sharedOnly = true)
    (h : C1Inv s) (hs : step s op = some s') : C1Inv s' := by
  obtain ⟨hsome, hnone⟩ := h
  cases hb : s.block with
  | none => cases op <;> simp [step, hb] at hs
  | some b =>
    obtain ⟨h1, h2, h3, h4, h5, h6, h7⟩ := hsome b hb
    cases op <;> simp [Op.sharedOnly] at hso
    case copyShared =>
      simp only [step, hb] at hs
      split at hs
      case isTrue =>
        simp only [Option.some.injEq] at hs
        subst hs
        refine ⟨?_, ?_⟩
        · rintro b' hb'
          dsimp only at hb'
          simp only [Option.some.injEq] at hb'
          subst hb'
          refine ⟨?_, by dsimp only; omega, ?_, by dsimp only; omega, ?_, ?_, ?_⟩
          · dsimp only
            simp [CB.IncrementShared, h1]
          · simpa [CB.IncrementShared] using h3
          · exact h5
          · exact h6
          · exact h7
        · intro hn
          simp at hn
      case isFalse hcon => exact absurd h2 hcon
    case dropShared =>
      simp only [step, hb] at hs
      split at hs
      case isTrue hguard =>
        simp only [Option.some.injEq] at hs
        subst hs
        by_cases hlast : s.nShared = 1
        · have hres := sharedResetBlock_last (b := b) (by omega) h3 h5
          have hBlk : (sharedResetBlock b).1 = none := by rw [hres]
          have hD : (sharedResetBlock b).2.1 = 1 := by rw [hres]
          have hF : (sharedResetBlock b).2.2 = 1 := by rw [hres]
          refine ⟨?_, ?_⟩
          · rintro b' hb'
            dsimp only at hb'
            rw [hBlk] at hb'
            simp at hb'
          · intro _
            dsimp only
            rw [hD, hF]
            refine ⟨by omega, by omega, by omega⟩
        · have hres := sharedResetBlock_many (b := b) (by omega)
          have hBlk : (sharedResetBlock b).1 =
              some { b with shared_counter := b.shared_counter - 1 } := by rw [hres]
          have hD : (sharedResetBlock b).2.1 = 0 := by rw [hres]
          have hF : (sharedResetBlock b).2.2 = 0 := by rw [hres]
          refine ⟨?_, ?_⟩
          · rintro b' hb'
            dsimp only at hb'
            rw [hBlk] at hb'
            simp only [Option.some.injEq] at hb'
            subst hb'
            refine ⟨by dsimp only; omega, by dsimp only; omega, h3,
                    by dsimp only; omega, h5,
                    by dsimp only; rw [hD]; omega,
                    by dsimp only; rw [hF]; omega⟩
          · intro hn
            dsimp only at hn
            rw [hBlk] at hn
            simp at hn
      case isFalse hcon => exact absurd h2 hcon

/-- Every state reachable by shared-pointer copy/reset/destroy operations
satisfies the payload-lifecycle invariant. -/
theorem c1Inv_reachable {s : TraceState} (h : ReachableShared s) : C1Inv s := by
  induction h with
  | initP => exact c1Inv_init_ptr
  | initM => exact c1Inv_init_ms
  | next op _ hso hstep ih => exact c1Inv_step op hso ih hstep
/-- C1: for every control block (both variants) and every sequence of
shared-pointer copy/reset/destroy operations on it, the payload is
destroyed at most once, and it is destroyed exactly at the operation in
which the strong count transitions from 1 to 0 — no other operation (nor
the freeing of the block, whose destructor's destroy call is guarded)
destroys it. -/
theorem c1_payload_destroyed_exactly_once :
    (∀ s : TraceState, ReachableShared s → s.destroys ≤ 1) ∧
    (∀ (s s' : TraceState) (op : Op), ReachableShared s →
      op.sharedOnly = true → step s op = some s' →
      s.destroys ≤ s'.destroys ∧ s'.destroys ≤ s.destroys + 1 ∧
      (s'.destroys = s.destroys + 1 ↔
        op = .dropShared ∧ ∃ b, s.block = some b ∧ b.shared_counter = 1)) := by
  constructor
  · intro s h
    obtain ⟨hsome, hnone⟩ := c1Inv_reachable h
    cases hb : s.block with
    | some b => have := (hsome b hb).2.2.2.2.2.1; omega
    | none => have := (hnone hb).2.1; omega
  · intro s s' op h hso hs
    obtain ⟨hsome, hnone⟩ := c1Inv_reachable h
    cases hb : s.block with
    | none => cases op <;> simp [step, hb] at hs
    | some b =>
      obtain ⟨h1, h2, h3, h4, h5, h6, h7⟩ := hsome b hb
      cases op <;> simp [Op.sharedOnly] at hso
      case copyShared =>
        simp only [step, hb] at hs
        split at hs
        case isTrue =>
          simp only [Option.some.injEq] at hs
          subst hs
          refine ⟨by dsimp only; omega, by dsimp only; omega, ?_⟩
          constructor
          · intro hEq
            dsimp only at hEq
            exact absurd hEq (by omega)
          · rintro ⟨hcontra, -⟩
            exact Op.noConfusion hcontra
        case isFalse hcon => exact absurd h2 hcon
      case dropShared =>
        simp only [step, hb] at hs
        split at hs
        case isTrue hguard =>
          simp only [Option.some.injEq] at hs
          subst hs
          by_cases hlast : s.nShared = 1
          · have hres := sharedResetBlock_last (b := b) (by omega) h3 h5
            have hD : (sharedResetBlock b).2.1 = 1 := by rw [hres]
            refine ⟨by dsimp only; omega, by dsimp only; omega, ?_⟩
            constructor
            · intro _
              exact ⟨rfl, b, rfl, by omega⟩
            · intro _
              dsimp only
              omega
          · have hres := sharedResetBlock_many (b := b) (by omega)
            have hD : (sharedResetBlock b).2.1 = 0 := by rw [hres]
            refine ⟨by dsimp only; omega, by dsimp only; omega, ?_⟩
            constructor
            · intro hEq
              dsimp only at hEq
              exact absurd hEq (by omega)
            · rintro ⟨-, b'', hb'', hc⟩
              injection hb'' with hb''
              subst hb''
              exact absurd hlast (by omega)
        case isFalse hcon => exact absurd h2 hcon

/-- Witness for C1: a fresh one-owner `PtrControlBlock` is reachable, its
reset destroys the payload exactly once (strong count 1 → 0), and the
cumulative destruction count never exceeds one. -/
theorem c1_payload_destroyed_exactly_once_witness :
    step initPtr Op.dropShared =
      some { block := none, nShared := 0, nWeak := 0, destroys := 1, frees := 1 } ∧
    (1 : Nat) = initPtr.destroys + 1 ∧ initPtr.destroys ≤ 1 := by
  have h := c1_payload_destroyed_exactly_once
  have hstep : step initPtr Op.dropShared =
      some { block := none, nShared := 0, nWeak := 0, destroys := 1, frees := 1 } := by
    decide
  refine ⟨hstep, ?_, h.1 initPtr ReachableShared.initP⟩
  have h2 := h.2 initPtr
      { block := none, nShared := 0, nWeak := 0, destroys := 1, frees := 1 }
      Op.dropShared ReachableShared.initP (by decide) hstep
  exact h2.2.2.mpr ⟨rfl, ⟨1, 0, .ptrVariant, true, false⟩, rfl, rfl⟩

/-- C2: over every sequence of shared- and weak-pointer operations, the
block's memory is freed at most once, and it is freed exactly at the
strong or weak decrement after which both counters are 0; a block whose
payload is destroyed while weak observers survive is not freed at that
step. -/
theorem c2_block_freed_exactly_once :
    (∀ s : TraceState, Reachable s → s.frees ≤ 1) ∧
    (∀ (s s' : TraceState) (op : Op), Reachable s → step s op = some s' →
      s.frees ≤ s'.frees ∧ s'.frees ≤ s.frees + 1 ∧
      (s'.frees = s.frees + 1 ↔
        ∃ b, s.block = some b ∧
          ((op = .dropShared ∧ b.shared_counter = 1 ∧ b.weak_counter = 0) ∨
           (op = .dropWeak ∧ b.shared_counter = 0 ∧ b.weak_counter = 1)))) := by
  constructor
  · intro s h
    obtain ⟨hsome, hnone⟩ := c2Inv_reachable h
    cases hb : s.block with
    | some b => have := (hsome b hb).2.2.2; omega
    | none => have := (hnone hb).2.2; omega
  · intro s s' op h hs
    obtain ⟨hsome, hnone⟩ := c2Inv_reachable h
    cases hb : s.block with
    | none => cases op <;> simp [step, hb] at hs
    | some b =>
      obtain ⟨h1, h2, h3, h4⟩ := hsome b hb
      cases op
      case copyShared =>
        simp only [step, hb] at hs
        split at hs
        case isTrue =>
          simp only [Option.some.injEq] at hs
          subst hs
          refine ⟨by dsimp only; omega, by dsimp only; omega, ?_⟩
          constructor
          · intro hEq
            dsimp only at hEq
            exact absurd hEq (by omega)
          · rintro ⟨b'', -, (⟨hcontra, -⟩ | ⟨hcontra, -⟩)⟩ <;> exact Op.noConfusion hcontra
        case isFalse => exact absurd hs (by simp)
      case weakFromShared =>
        simp only [step, hb] at hs
        split at hs
        case isTrue =>
          simp only [Option.some.injEq] at hs
          subst hs
          refine ⟨by dsimp only; omega, by dsimp only; omega, ?_⟩
          constructor
          · intro hEq
            dsimp only at hEq
            exact absurd hEq (by omega)
          · rintro ⟨b'', -, (⟨hcontra, -⟩ | ⟨hcontra, -⟩)⟩ <;> exact Op.noConfusion hcontra
        case isFalse => exact absurd hs (by simp)
      case copyWeak =>
        simp only [step, hb] at hs
        split at hs
        case isTrue =>
          simp only [Option.some.injEq] at hs
          subst hs
          refine ⟨by dsimp only; omega, by dsimp only; omega, ?_⟩
          constructor
          · intro hEq
            dsimp only at hEq
            exact absurd hEq (by omega)
          · rintro ⟨b'', -, (⟨hcontra, -⟩ | ⟨hcontra, -⟩)⟩ <;> exact Op.noConfusion hcontra
        case isFalse => exact absurd hs (by simp)
      case lockWeak =>
        simp only [step, hb] at hs
        split at hs
        case isTrue =>
          simp only [Option.some.injEq] at hs
          subst hs
          refine ⟨by dsimp only; omega, by dsimp only; omega, ?_⟩
          constructor
          · intro hEq
            dsimp only at hEq
            exact absurd hEq (by omega)
          · rintro ⟨b'', -, (⟨hcontra, -⟩ | ⟨hcontra, -⟩)⟩ <;> exact Op.noConfusion hcontra
        case isFalse => exact absurd hs (by simp)
      case promoteStrict =>
        simp only [step, hb] at hs
        split at hs
        case isTrue =>
          split at hs
          case isTrue =>
            simp only [Option.some.injEq] at hs
            subst hs
            refine ⟨le_refl _, by omega, ?_⟩
            constructor
            · intro hEq
              exact absurd hEq (by omega)
            · rintro ⟨b'', -, (⟨hcontra, -⟩ | ⟨hcontra, -⟩)⟩ <;> exact Op.noConfusion hcontra
          case isFalse =>
            simp only [Option.some.injEq] at hs
            subst hs
            refine ⟨by dsimp only; omega, by dsimp only; omega, ?_⟩
            constructor
            · intro hEq
              dsimp only at hEq
              exact absurd hEq (by omega)
            · rintro ⟨b'', -, (⟨hcontra, -⟩ | ⟨hcontra, -⟩)⟩ <;> exact Op.noConfusion hcontra
        case isFalse => exact absurd hs (by simp)
      case dropShared =>
        simp only [step, hb] at hs
        split at hs
        case isTrue hguard =>
          simp only [Option.some.injEq] at hs
          subst hs
          by_cases hlast : s.nShared = 1 ∧ s.nWeak = 0
          · have hfree := sharedResetBlock_free (b := b) (by omega) (by omega)
            have hF : (sharedResetBlock b).2.2 = 1 := hfree.2
            refine ⟨by dsimp only; omega, by dsimp only; omega, ?_⟩
            constructor
            · intro _
              exact ⟨b, rfl, .inl ⟨rfl, by omega, by omega⟩⟩
            · intro _
              dsimp only
              omega
          · have hkeep := sharedResetBlock_keep (b := b) (by omega)
            obtain ⟨b', d, hEq, -, -⟩ := hkeep
            have hF : (sharedResetBlock b).2.2 = 0 := by rw [hEq]
            refine ⟨by dsimp only; omega, by dsimp only; omega, ?_⟩
            constructor
            · intro hEq2
              dsimp only at hEq2
              exact absurd hEq2 (by omega)
            · rintro ⟨b'', hb'', (⟨-, hc1, hc2⟩ | ⟨hcontra, -⟩)⟩
              · injection hb'' with hb''
                subst hb''
                exact absurd hlast (by omega)
              · exact Op.noConfusion hcontra
        case isFalse => exact absurd hs (by simp)
      case dropWeak =>
        simp only [step, hb] at hs
        split at hs
        case isTrue hguard =>
          simp only [Option.some.injEq] at hs
          subst hs
          by_cases hlast : s.nWeak = 1 ∧ s.nShared = 0
          · have hfree := weakResetBlock_free (b := b) (by omega) (by omega)
            have hF : (weakResetBlock b).2.2 = 1 := hfree.2
            refine ⟨by dsimp only; omega, by dsimp only; omega, ?_⟩
            constructor
            · intro _
              exact ⟨b, rfl, .inr ⟨rfl, by omega, by omega⟩⟩
            · intro _
              dsimp only
              omega
          · have hkeep := weakResetBlock_keep (b := b) (by omega)
            obtain ⟨hEq, -, -⟩ := hkeep
            have hF : (weakResetBlock b).2.2 = 0 := by rw [hEq]
            refine ⟨by dsimp only; omega, by dsimp only; omega, ?_⟩
            constructor
            · intro hEq2
              dsimp only at hEq2
              exact absurd hEq2 (by omega)
            · rintro ⟨b'', hb'', (⟨hcontra, -⟩ | ⟨-, hc1, hc2⟩)⟩
              · exact Op.noConfusion hcontra
              · injection hb'' with hb''
                subst hb''
                exact absurd hlast (by omega)
        case isFalse => exact absurd hs (by simp)

/-- Intermediate states of the C2 witness trace: after demoting the single
owner to an additional weak observer, after dropping the shared pointer
(payload destroyed, block not freed), and after dropping the weak pointer
(block freed). -/
def wState1 : TraceState := ⟨some ⟨1, 1, .ptrVariant, true, false⟩, 1, 1, 0, 0⟩

def wState2 : TraceState := ⟨some ⟨0, 1, .ptrVariant, false, false⟩, 0, 1, 1, 0⟩

def wState3 : TraceState := ⟨none, 0, 0, 1, 1⟩

/-- Witness for C2: from a fresh one-owner block, demote to a weak pointer,
drop the shared pointer (payload destroyed, block kept alive by the weak
observer, not freed), then drop the weak pointer (block freed exactly at
the weak decrement reaching both-zero). -/
theorem c2_block_freed_exactly_once_witness :
    step initPtr Op.weakFromShared = some wState1 ∧
    step wState1 Op.dropShared = some wState2 ∧
    step wState2 Op.dropWeak = some wState3 ∧
    wState2.frees = wState1.frees ∧ wState3.frees = wState2.frees + 1 ∧
    wState3.frees ≤ 1 := by
  have h := c2_block_freed_exactly_once
  have hs1 : step initPtr Op.weakFromShared = some wState1 := by decide
  have hs2 : step wState1 Op.dropShared = some wState2 := by decide
  have hs3 : step wState2 Op.dropWeak = some wState3 := by decide
  have hr1 : Reachable wState1 :=
    Reachable.next Op.weakFromShared Reachable.initP hs1
  have hr2 : Reachable wState2 := Reachable.next Op.dropShared hr1 hs2
  have hr3 : Reachable wState3 := Reachable.next Op.dropWeak hr2 hs3
  have hinc := (h.2 wState2 wState3 Op.dropWeak hr2 hs3).2.2.mpr
    ⟨⟨0, 1, .ptrVariant, false, false⟩, rfl, .inr ⟨rfl, rfl, rfl⟩⟩
  have hnofree : wState2.frees = wState1.frees := by decide
  exact ⟨hs1, hs2, hs3, hnofree, hinc, h.1 _ hr3⟩

/-! ## Handle-level model (single block)

`SPtrH`/`WPtrH` model the two fields of `SharedPtr<T>`/`WeakPtr<T>`
(src/weak/shared.h, src/weak/weak.h) in a world with a single control
block: `obj` is `obj_` (payload address or null), `blk` is whether
`block_` points to the block. -/

structure SPtrH where
  obj : Option Nat
  blk : Bool
deriving DecidableEq, Repr

structure WPtrH where
  obj : Option Nat
  blk : Bool
deriving DecidableEq, Repr

/-- `SharedPtr::Get`. -/
def SPtrH.Get (p : SPtrH) : Option Nat := p.obj

/-- `SharedPtr::operator bool`: `block_ != nullptr`. -/
def SPtrH.toBool (p : SPtrH) : Bool := p.blk

/-- `SharedPtr::UseCount`: the block's strong count, or 0 with no block. -/
def SPtrH.UseCount (p : SPtrH) (b : CB) : Nat :=
  if p.blk then b.GetSharedCount else 0

/-- `WeakPtr::Expired`: `GetSharedCount() == 0`, or true with no block. -/
def WPtrH.Expired (w : WPtrH) (b : CB) : Bool :=
  if w.blk then b.GetSharedCount == 0 else true

/-- The `BadWeakPtr` exception. -/
inductive BadWeakPtr where
  | mk
deriving DecidableEq, Repr

/-- `SharedPtr(const WeakPtr<T>&, bool from_lock)` (src/weak/shared.h lines
168-180): copies `obj_`/`block_`; with a block attached, an expired source
either nulls `obj_` (lock mode) or throws `BadWeakPtr` (strict mode,
before any increment); in every non-throwing path with a block attached it
then runs `IncrementShared()` — also when expired in lock mode. -/
def promoteCtor (w : WPtrH) (from_lock : Bool) (b : CB) :
    Except BadWeakPtr (SPtrH × CB) :=
  if w.blk then
    if w.Expired b then
      if from_lock then .ok (⟨none, true⟩, b.IncrementShared)
      else .error BadWeakPtr.mk
    else .ok (⟨w.obj, true⟩, b.IncrementShared)
  else .ok (⟨w.obj, false⟩, b)

/-- `WeakPtr::Lock`: `SharedPtr<T>(*this, true)`. -/
def WPtrH.Lock (w : WPtrH) (b : CB) : Except BadWeakPtr (SPtrH × CB) :=
  promoteCtor w true b

/-- Copy constructor `SharedPtr(const SharedPtr&)`: shares both fields and
increments the strong count when a block is attached. -/
def sharedCopyCtor (other : SPtrH) (b : CB) : SPtrH × CB :=
  (⟨other.obj, other.blk⟩, if other.blk then b.IncrementShared else b)

/-- Aliasing constructor `SharedPtr(const SharedPtr<Y>&, T*)` (src/weak/
shared.h lines 154-159): stores the supplied address, shares the block and
increments the strong count when a block is attached. -/
def aliasCtor (other : SPtrH) (ptr : Option Nat) (b : CB) : SPtrH × CB :=
  (⟨ptr, other.blk⟩, if other.blk then b.IncrementShared else b)

/-- Move constructor `SharedPtr(SharedPtr&&)`: default-initializes the new
handle then `Swap(other)` — returns (destination, moved-from source); no
block operation happens at all. -/
def sharedMoveCtor (other : SPtrH) : SPtrH × SPtrH :=
  (other, ⟨none, false⟩)

/-- `SharedPtr::Reset()` at handle level: `obj_ = nullptr`; with a block
attached, `DecrementShared` and possibly `delete block_`
(via `sharedResetBlock`); otherwise no block effect.  Returns the handle
and the block effect (surviving block, payload destroys, block frees). -/
def sharedResetH (p : SPtrH) (b : CB) : SPtrH × (Option CB × Nat × Nat) :=
  if p.blk then (⟨none, false⟩, sharedResetBlock b)
  else (⟨none, false⟩, (some b, 0, 0))

/-- Move assignment `SharedPtr::operator=(SharedPtr&&)` for two distinct
handles (the self-assignment check compares addresses): `Reset()` on the
destination, then `Swap(other)`.  Returns ((destination, source), block
effect of the reset). -/
def sharedMoveAssign (dst src : SPtrH) (b : CB) :
    (SPtrH × SPtrH) × (Option CB × Nat × Nat) :=
  ((src, (sharedResetH dst b).1), (sharedResetH dst b).2)

/-- `use_count` as read through the trace machine's block. -/
def useCountVal (s : TraceState) : Nat :=
  match s.block with
  | some b => b.GetSharedCount
  | none => 0

/-! ## `UniquePtr` (src/unique/unique.h)

The deleter is modelled with a `Nat` state; `0` is the default-constructed
deleter.  `first`/`second` are the two slots of the compressed pair. -/

structure UniquePtrM where
  first : Option Nat
  second : Nat
deriving DecidableEq, Repr

def defaultDeleterState : Nat := 0

/-- `UniquePtr::Get`. -/
def UniquePtrM.Get (u : UniquePtrM) : Option Nat := u.first

/-- `UniquePtr::GetDeleter`. -/
def UniquePtrM.GetDeleter (u : UniquePtrM) : Nat := u.second

/-- `UniquePtr::operator bool`: `data_.GetFirst() != nullptr`. -/
def UniquePtrM.toBool (u : UniquePtrM) : Bool := u.first.isSome

/-- `UniquePtr::Reset(ptr)` (src/unique/unique.h lines 93-99): builds
`CompressedPair(ptr, Deleter())` with a fresh default deleter, swaps it
with `data_`, then invokes the old deleter on the old handle if non-null.
Returns the new state and the deleter-invocation log as
(deleter state, handle) pairs. -/
def UniquePtrM.Reset (u : UniquePtrM) (ptr : Option Nat) :
    UniquePtrM × List (Nat × Nat) :=
  match u.first with
  | some h => (⟨ptr, defaultDeleterState⟩, [(u.second, h)])
  | none => (⟨ptr, defaultDeleterState⟩, [])

/-- `UniquePtr(UniquePtr&&)`: `data_ = {nullptr, Deleter()}; Swap(other);`
— returns (destination, moved-from source). -/
def UniquePtrM.moveCtor (other : UniquePtrM) : UniquePtrM × UniquePtrM :=
  (other, ⟨none, defaultDeleterState⟩)

/-- `UniquePtr::operator=(UniquePtr&&)` for two distinct objects:
`Reset(); Swap(other);` — returns ((destination, source),
deleter-invocation log of the reset). -/
def UniquePtrM.moveAssign (dst src : UniquePtrM) :
    (UniquePtrM × UniquePtrM) × List (Nat × Nat) :=
  ((src, (dst.Reset none).1), (dst.Reset none).2)

/-! ## `MakeShared` (src/weak/shared.h lines 283-292) -/

structure MakeSharedResult where
  threw : Bool
  blockFreed : Bool
  dtorCallsDuringFailure : Nat
  result : Option (SPtrH × CB)
deriving DecidableEq, Repr

/-- `MakeShared`: allocates a `MakeSharedControlBlock` (whose constructor
runs `IncrementShared()`), then placement-constructs the payload in the
embedded storage; `ctorThrows` abstracts whether `T`'s constructor throws.
On throw, the catch block runs `delete block_ptr` — the destructor
`~MakeSharedControlBlock` sees `was_data_deleted_ == false` and invokes
`Get()->~T()` on the storage (counted by `destructorDestroys`) — and
rethrows.  On success it returns `SharedPtr<T>(block_ptr->Get(),
block_ptr)` (address modelled as 0). -/
def MakeShared (ctorThrows : Bool) : MakeSharedResult :=
  let block : CB := ⟨1, 0, .msVariant, false, false⟩
  if ctorThrows then
    { threw := true, blockFreed := true,
      dtorCallsDuringFailure := block.destructorDestroys, result := none }
  else
    { threw := false, blockFreed := false, dtorCallsDuringFailure := 0,
      result := some (⟨some 0, true⟩, block) }

/-! ## `EnableSharedFromThis` (declared src/weak/shared.h lines 296-303)

The weak handle of src/shared-from-this/weak.h carries the extra
`can_i_delete_block_` flag. -/

structure WPtrE where
  obj : Option Nat
  blk : Bool
  can_i_delete_block : Bool
deriving DecidableEq, Repr

/-- The ESFT constructor `WeakPtr(T* obj, BaseControlBlock* block)`
(src/shared-from-this/weak.h lines 44-58): stores the pair, sets
`can_i_delete_block_ = false`, increments the weak count when a block is
attached. -/
def weakESFTCtor (obj : Option Nat) (blkAttached : Bool) (b : CB) :
    WPtrE × CB :=
  (⟨obj, blkAttached, false⟩, if blkAttached then b.IncrementWeak else b)

/-- Modelled from the spec: the owning wrapper's ESFT installation step.
`EnableSharedFromThis` is only declared in src (src/weak/shared.h lines
296-303, no member definitions; the `SharedPtr`/`MakeShared` side that
detects the capability is absent from src).  Per spec §4.4, on first being
wrapped by an owning pointer the payload has a weak reference to itself
installed by that wrapping operation, threading the owner's control block
back into the payload; the installation uses the source ESFT weak
constructor above.  `b0` is the owner's freshly created block. -/
def wrapWithESFT (addr : Nat) (b0 : CB) : CB × WPtrE :=
  ((weakESFTCtor (some addr) true b0).2, (weakESFTCtor (some addr) true b0).1)

/-- Modelled from the spec: `SharedFromThis` "simply promotes that stored
weak reference" (spec §4.4), i.e. runs the promoting
`SharedPtr(const WeakPtr&)` constructor on the installed self-reference. -/
def SharedFromThis (self : WPtrE) (b : CB) : Except BadWeakPtr (SPtrH × CB) :=
  promoteCtor ⟨self.obj, self.blk⟩ false b

/-- The fresh one-owner block of each wrapping route: raw-handle
construction (`new PtrControlBlock(ptr)`, whose constructor runs
`IncrementShared()` and stores the non-null handle) or the
combined-allocation factory (`MakeSharedControlBlock`, whose constructor
runs `IncrementShared()` with the payload constructed in place). -/
def freshBlock : Variant → CB
  | .ptrVariant => ⟨1, 0, .ptrVariant, true, false⟩
  | .msVariant => ⟨1, 0, .msVariant, false, false⟩

/-- The ESFT wrap of a payload at `addr` along either wrapping route. -/
def esftWrap (v : Variant) (addr : Nat) : CB × WPtrE :=
  wrapWithESFT addr (freshBlock v)

/-- `k` further shared owners (copy constructions) of a block. -/
def copyN (b : CB) : Nat → CB
  | 0 => b
  | k + 1 => (copyN b k).IncrementShared

/-! ## Remaining claim theorems -/

/-- C3: when the payload's in-place constructor throws during `MakeShared`,
the block is freed immediately and the exception is rethrown — but,
contrary to the claim and the spec, `delete block_ptr` runs
`~MakeSharedControlBlock`, which (with `was_data_deleted_` still false)
invokes `Get()->~T()` once on the never-constructed storage. -/
theorem c3_makeshared_failure_invokes_dtor_on_unconstructed :
    (MakeShared true).threw = true ∧
    (MakeShared true).blockFreed = true ∧
    (MakeShared true).result = none ∧
    (MakeShared true).dtorCallsDuringFailure = 1 := by decide

/-- The block whose payload has already been destroyed (strong count 0,
one surviving weak observer). -/
def expiredCB : CB := ⟨0, 1, .ptrVariant, false, false⟩

/-- C4: `Lock` on an expired weak pointer (block attached, strong count 0)
does not return an empty shared pointer with the count unchanged: the
returned handle has the block attached (boolean conversion true) and the
strong count is incremented from 0 to 1, because
`SharedPtr(const WeakPtr&, true)` runs `IncrementShared()` even on the
expired path. -/
theorem c4_lock_on_expired_attaches_and_increments :
    WPtrH.Expired ⟨some 7, true⟩ expiredCB = true ∧
    WPtrH.Lock ⟨some 7, true⟩ expiredCB =
      .ok (⟨none, true⟩, ⟨1, 1, .ptrVariant, false, false⟩) ∧
    SPtrH.toBool ⟨none, true⟩ = true ∧
    CB.GetSharedCount ⟨1, 1, .ptrVariant, false, false⟩ =
      expiredCB.GetSharedCount + 1 :=
  ⟨rfl, rfl, rfl, rfl⟩

/-- Counterexample for C5: a weak pointer with no block attached is
expired, yet strict-mode promotion does not raise the expired-reference
failure — it silently yields an empty shared pointer, refuting "raised
exactly when expired, including the case where no block is attached". -/
theorem c5_counterexample_blockless_strict_is_silent :
    WPtrH.Expired ⟨none, false⟩ expiredCB = true ∧
    promoteCtor ⟨none, false⟩ false expiredCB =
      .ok (⟨none, false⟩, expiredCB) :=
  ⟨rfl, rfl⟩

/-- C5 (amended): strict-mode promotion raises `BadWeakPtr` exactly when a
block is attached and its strong count is zero (the failure propagates:
the constructor exits before any increment), and lock-mode promotion never
raises. -/
theorem c5_strict_raises_iff_block_attached_and_expired :
    ∀ (w : WPtrH) (b : CB),
      ((∃ e, promoteCtor w false b = .error e) ↔
        (w.blk = true ∧ b.GetSharedCount = 0)) ∧
      (∃ r, promoteCtor w true b = .ok r) := by
  intro w b
  obtain ⟨o, blk⟩ := w
  cases blk
  · have hpc : promoteCtor ⟨o, false⟩ false b = .ok (⟨o, false⟩, b) := by
      simp [promoteCtor]
    have hpl : promoteCtor ⟨o, false⟩ true b = .ok (⟨o, false⟩, b) := by
      simp [promoteCtor]
    refine ⟨⟨?_, ?_⟩, _, hpl⟩
    · rintro ⟨e, he⟩
      rw [hpc] at he
      exact Except.noConfusion he
    · rintro ⟨hb', -⟩
      exact Bool.noConfusion hb'
  · by_cases hc : b.GetSharedCount = 0
    · have hpc : promoteCtor ⟨o, true⟩ false b = .error BadWeakPtr.mk := by
        simp [promoteCtor, WPtrH.Expired, hc]
      have hpl : promoteCtor ⟨o, true⟩ true b =
          .ok (⟨none, true⟩, b.IncrementShared) := by
        simp [promoteCtor, WPtrH.Expired, hc]
      exact ⟨⟨fun _ => ⟨rfl, hc⟩, fun _ => ⟨BadWeakPtr.mk, hpc⟩⟩, _, hpl⟩
    · have hpc : promoteCtor ⟨o, true⟩ false b =
          .ok (⟨o, true⟩, b.IncrementShared) := by
        simp [promoteCtor, WPtrH.Expired, hc]
      have hpl : promoteCtor ⟨o, true⟩ true b =
          .ok (⟨o, true⟩, b.IncrementShared) := by
        simp [promoteCtor, WPtrH.Expired, hc]
      refine ⟨⟨?_, ?_⟩, _, hpl⟩
      · rintro ⟨e, he⟩
        rw [hpc] at he
        exact Except.noConfusion he
      · rintro ⟨-, h0⟩
        exact absurd h0 hc

theorem copyN_count (b : CB) (k : Nat) :
    (copyN b k).GetSharedCount = b.GetSharedCount + k := by
  induction k with
  | zero => rfl
  | succ k ih =>
      simp only [copyN, CB.IncrementShared, CB.GetSharedCount] at *
      omega

/-- C6 (spec-modelled installation/promotion, source ESFT weak
constructor): wrapping a payload exposing the self-referencing capability
by either owning route — raw-handle construction or the
combined-allocation factory — installs a weak reference to the payload
itself (weak count 1, `can_i_delete_block_` false), and — with any number
`k` of further owners — `SharedFromThis` returns a shared pointer whose
address equals the original payload address and whose count is one more
than before the call. -/
theorem c6_shared_from_this_roundtrip :
    ∀ (v : Variant) (addr k : Nat),
      (esftWrap v addr).2 = ⟨some addr, true, false⟩ ∧
      ((esftWrap v addr).1).GetWeakCount = 1 ∧
      ((esftWrap v addr).1).GetSharedCount = 1 ∧
      SharedFromThis (esftWrap v addr).2 (copyN (esftWrap v addr).1 k) =
        .ok (⟨some addr, true⟩, (copyN (esftWrap v addr).1 k).IncrementShared) ∧
      ((copyN (esftWrap v addr).1 k).IncrementShared).GetSharedCount =
        (copyN (esftWrap v addr).1 k).GetSharedCount + 1 ∧
      SPtrH.Get ⟨some addr, true⟩ = some addr := by
  intro v addr k
  cases v
  case ptrVariant =>
    have hcount : (copyN (esftWrap .ptrVariant addr).1 k).GetSharedCount = 1 + k := by
      rw [copyN_count]
      rfl
    have hne : ((copyN (esftWrap .ptrVariant addr).1 k).GetSharedCount == 0) = false := by
      simp [hcount]
    refine ⟨rfl, rfl, rfl, ?_, rfl, rfl⟩
    have hblk : (esftWrap .ptrVariant addr).2 = ⟨some addr, true, false⟩ := rfl
    rw [SharedFromThis, hblk]
    simp [promoteCtor, WPtrH.Expired, hne]
  case msVariant =>
    have hcount : (copyN (esftWrap .msVariant addr).1 k).GetSharedCount = 1 + k := by
      rw [copyN_count]
      rfl
    have hne : ((copyN (esftWrap .msVariant addr).1 k).GetSharedCount == 0) = false := by
      simp [hcount]
    refine ⟨rfl, rfl, rfl, ?_, rfl, rfl⟩
    have hblk : (esftWrap .msVariant addr).2 = ⟨some addr, true, false⟩ := rfl
    rw [SharedFromThis, hblk]
    simp [promoteCtor, WPtrH.Expired, hne]

/-- C7: in every shared-only trace the strong count read by `UseCount`
through any live copy equals the number of live copies; each copy
construction increments it by exactly one, each reset/destruction
decrements it by exactly one, and `UseCount` of an empty handle is 0. -/
theorem c7_use_count_tracks_copies :
    (∀ s : TraceState, ReachableShared s → useCountVal s = s.nShared) ∧
    (∀ s s' : TraceState, step s Op.copyShared = some s' →
      useCountVal s' = useCountVal s + 1) ∧
    (∀ s s' : TraceState, step s Op.dropShared = some s' →
      useCountVal s' = useCountVal s - 1) ∧
    (∀ (o : Option Nat) (b : CB), SPtrH.UseCount ⟨o, false⟩ b = 0) := by
  refine ⟨?_, ?_, ?_, ?_⟩
  · intro s h
    obtain ⟨hsome, hnone⟩ := c1Inv_reachable h
    cases hb : s.block with
    | some b =>
        have h1 := (hsome b hb).1
        simp [useCountVal, hb, CB.GetSharedCount, h1]
    | none =>
        have h1 := (hnone hb).1
        simp [useCountVal, hb, h1]
  · intro s s' hs
    cases hb : s.block with
    | none => simp [step, hb] at hs
    | some b =>
        simp only [step, hb] at hs
        split at hs
        · simp only [Option.some.injEq] at hs
          subst hs
          simp [useCountVal, hb, CB.IncrementShared, CB.GetSharedCount]
        · exact absurd hs (by simp)
  · intro s s' hs
    cases hb : s.block with
    | none => simp [step, hb] at hs
    | some b =>
        simp only [step, hb] at hs
        split at hs
        · simp only [Option.some.injEq] at hs
          subst hs
          by_cases hfree : b.shared_counter ≤ 1 ∧ b.weak_counter = 0
          · have h := sharedResetBlock_free (b := b) hfree.1 hfree.2
            simp only [useCountVal, hb]
            rw [h.1]
            simp [CB.GetSharedCount]
            omega
          · have h := sharedResetBlock_keep (b := b) (by omega)
            obtain ⟨b', d, hEq, hsc, hwc⟩ := h
            have hBlk : (sharedResetBlock b).1 = some b' := by rw [hEq]
            simp only [useCountVal, hb]
            rw [hBlk]
            simp [CB.GetSharedCount, hsc]
        · exact absurd hs (by simp)
  · intro o b
    simp [SPtrH.UseCount]

/-- Witness for C7: a fresh one-owner block has `use_count` 1 = number of
copies; a copy takes it to 2; the drop takes it back. -/
theorem c7_use_count_tracks_copies_witness :
    useCountVal initPtr = initPtr.nShared ∧
    (∃ s', step initPtr Op.copyShared = some s' ∧
      useCountVal s' = useCountVal initPtr + 1) := by
  have h := c7_use_count_tracks_copies
  refine ⟨h.1 initPtr ReachableShared.initP, ?_⟩
  have hstep : step initPtr Op.copyShared =
      some ⟨some ⟨2, 0, .ptrVariant, true, false⟩, 2, 0, 0, 0⟩ := by decide
  exact ⟨_, hstep, h.2.1 initPtr _ hstep⟩

/-- Counterexample for C8: two distinct live handles can reference the
same block (strong count 2); move-assigning one into the other first
resets the destination, so the block's count drops to 1 — not "unchanged"
as the claim states for move-assignment. -/
theorem c8_counterexample_move_assign_count_drops :
    (sharedMoveAssign ⟨some 5, true⟩ ⟨some 5, true⟩
        ⟨2, 0, .ptrVariant, true, false⟩).2.1 =
      some ⟨1, 0, .ptrVariant, true, false⟩ ∧
    CB.GetSharedCount ⟨1, 0, .ptrVariant, true, false⟩ ≠
      CB.GetSharedCount ⟨2, 0, .ptrVariant, true, false⟩ := by decide

/-- C8 (amended): move-construction transfers the handle/block pair to the
destination and empties the source with no reference-count operation at
all; move-assignment empties the source and gives the destination the
source's prior state, its only block effect being the release of the
destination's previous reference (a no-op when the destination was empty,
and a decrement of the shared block when destination and source referenced
the same block); destroying or resetting the moved-from source is a no-op. -/
theorem c8_move_empties_source_dest_holds_state :
    (∀ u : UniquePtrM, u.moveCtor = (u, ⟨none, defaultDeleterState⟩)) ∧
    ((⟨none, defaultDeleterState⟩ : UniquePtrM).Get = none ∧
      (⟨none, defaultDeleterState⟩ : UniquePtrM).toBool = false) ∧
    (∀ (d : Nat) (p : Option Nat),
      UniquePtrM.Reset ⟨none, d⟩ p = (⟨p, defaultDeleterState⟩, [])) ∧
    (∀ dst src : UniquePtrM,
      dst.moveAssign src = ((src, ⟨none, defaultDeleterState⟩), (dst.Reset none).2)) ∧
    (∀ p : SPtrH, sharedMoveCtor p = (p, ⟨none, false⟩)) ∧
    ((⟨none, false⟩ : SPtrH).Get = none ∧
      (⟨none, false⟩ : SPtrH).toBool = false) ∧
    (∀ b : CB, sharedResetH ⟨none, false⟩ b = (⟨none, false⟩, some b, 0, 0)) ∧
    (∀ (dst src : SPtrH) (b : CB),
      sharedMoveAssign dst src b = ((src, ⟨none, false⟩), (sharedResetH dst b).2)) ∧
    (∀ (src : SPtrH) (b : CB),
      sharedMoveAssign ⟨none, false⟩ src b = ((src, ⟨none, false⟩), some b, 0, 0)) := by
  have hreset1 : ∀ (p : SPtrH) (b : CB), (sharedResetH p b).1 = ⟨none, false⟩ := by
    intro p b
    obtain ⟨o, blk⟩ := p
    cases blk <;> simp [sharedResetH]
  have huniq : ∀ u : UniquePtrM, (u.Reset none).1 = ⟨none, defaultDeleterState⟩ := by
    intro u
    cases hu : u.first <;> simp [UniquePtrM.Reset, hu]
  refine ⟨fun u => rfl, ⟨rfl, rfl⟩, fun d p => rfl, ?_, fun p => rfl, ⟨rfl, rfl⟩,
          fun b => rfl, ?_, fun src b => rfl⟩
  · intro dst src
    simp [UniquePtrM.moveAssign, huniq dst]
  · intro dst src b
    simp [sharedMoveAssign, hreset1 dst b]

/-- C9: the aliasing constructor yields a handle reporting the supplied
sub-object address, sharing the block with the strong count incremented by
one, whose `UseCount` agrees with the original's; and as long as any owner
(including the alias) lives, the payload is alive. -/
theorem c9_aliasing_shares_block_reports_address :
    (∀ (p : SPtrH) (ptr : Option Nat) (b : CB), p.blk = true →
      ((aliasCtor p ptr b).1).Get = ptr ∧
      ((aliasCtor p ptr b).1).blk = true ∧
      ((aliasCtor p ptr b).2).GetSharedCount = b.GetSharedCount + 1 ∧
      ((aliasCtor p ptr b).1).UseCount (aliasCtor p ptr b).2 =
        p.UseCount (aliasCtor p ptr b).2) ∧
    (∀ (s : TraceState) (b : CB), ReachableShared s → s.block = some b →
      1 ≤ s.nShared → b.dataAlive = true) := by
  constructor
  · intro p ptr b hp
    simp [aliasCtor, hp, SPtrH.Get, SPtrH.UseCount, CB.IncrementShared,
          CB.GetSharedCount]
  · intro s b h hb _
    obtain ⟨hsome, -⟩ := c1Inv_reachable h
    exact (hsome b hb).2.2.2.2.1

/-- Witness for C9: aliasing a one-owner block to sub-object address 7
reports address 7, count 2 on both handles; the fresh block's payload is
alive. -/
theorem c9_aliasing_witness :
    ((aliasCtor ⟨some 5, true⟩ (some 7) ⟨1, 0, .ptrVariant, true, false⟩).1).Get =
      some 7 ∧
    ((aliasCtor ⟨some 5, true⟩ (some 7) ⟨1, 0, .ptrVariant, true, false⟩).2).GetSharedCount =
      CB.GetSharedCount ⟨1, 0, .ptrVariant, true, false⟩ + 1 ∧
    CB.dataAlive ⟨1, 0, .ptrVariant, true, false⟩ = true := by
  have h := c9_aliasing_shares_block_reports_address
  have h1 := h.1 ⟨some 5, true⟩ (some 7) ⟨1, 0, .ptrVariant, true, false⟩ rfl
  have h2 := h.2 initPtr ⟨1, 0, .ptrVariant, true, false⟩
    ReachableShared.initP rfl (by decide)
  exact ⟨h1.1, h1.2.2.1, h2⟩

/-- C10: `UniquePtr::Reset(p)` invokes the previously stored deleter on
the previously held handle (if any) and leaves a freshly
default-constructed deleter behind; the destructor's and move-assignment's
resets go through the same path. -/
theorem c10_reset_discards_deleter_state :
    ∀ (u : UniquePtrM) (p : Option Nat),
      (u.Reset p).1 = ⟨p, defaultDeleterState⟩ ∧
      ((u.Reset p).1).GetDeleter = defaultDeleterState ∧
      (u.Reset p).2 = (match u.first with
        | some h => [(u.second, h)]
        | none => []) ∧
      (∀ src : UniquePtrM, (u.moveAssign src).2 = (u.Reset none).2) := by
  intro u p
  cases hu : u.first <;>
    simp [UniquePtrM.Reset, UniquePtrM.GetDeleter, UniquePtrM.moveAssign, hu]

end SmartPtr
